import Mathlib

/-!
Verification of the stream store (`src/proto/streams/store.rs`): a slab
arena of `Stream` objects indexed by `StreamId`, together with intrusive
singly-linked lists (`List` in the source, `IList` here) threaded through
per-queue link fields selected by a `Next` capability.

Modelling conventions:
- `Key` is the slab index (the source wraps a `usize` in `struct Key`).
- The slab (with no removal in this file) is a `List Stream`; `insert`
  appends, so a fresh key is the current length and a slot is occupied
  iff its index is below the length.
- The `HashMap<StreamId, usize>` is an association list with
  replace-or-append insertion (`idsInsert` returns the previous binding,
  mirroring `HashMap::insert`).
- `assert!` / `.unwrap()` failures are fatal; operations that can hit
  them return `Option` (with `none` for the fatal path) or a dedicated
  result constructor.
- `FnMut` closures are modelled as state-passing functions threading an
  explicit closure state `σ`.
- The `retain` loop is translated with an explicit fuel argument;
  exhausted fuel yields `none` (the loop of the source terminates on all
  well-formed inputs reachable in the theorems below).
-/

namespace H2

/-- Protocol-level stream identifier (opaque to the store). -/
abbrev StreamId := Nat

/-- `Key(usize)`: index of a slab slot. -/
abbrev Key := Nat

/-- The per-stream state object. Opaque to the store except for the
embedded per-queue link fields (`linkA`, `linkB` model two distinct
queues' fields) and a payload `val` standing for all other fields. -/
structure Stream where
  linkA : Option Key := none
  linkB : Option Key := none
  val : Nat := 0
deriving DecidableEq, Inhabited

/-- The `Next` trait: a link capability reading/writing/clearing one
queue's embedded link field on a `Stream`. -/
structure Next where
  next : Stream → Option Key
  set_next : Stream → Option Key → Stream
  take_next : Stream → Option Key × Stream

/-- The capability for queue A, reading and writing `linkA`. -/
def capA : Next where
  next s := s.linkA
  set_next s o := { s with linkA := o }
  take_next s := (s.linkA, { s with linkA := none })

/-- The capability for queue B, reading and writing `linkB`. -/
def capB : Next where
  next s := s.linkB
  set_next s o := { s with linkB := o }
  take_next s := (s.linkB, { s with linkB := none })

/-- The laws every `Next` implementation satisfies by construction
(each one reads/writes a single embedded field). -/
structure Next.Lawful (N : Next) : Prop where
  next_set : ∀ s o, N.next (N.set_next s o) = o
  take_eq : ∀ s, N.take_next s = (N.next s, N.set_next s none)

/-- `Store<B>`: the slab arena plus the `StreamId → Key` mapping. -/
structure Store where
  slab : List Stream := []
  ids : List (StreamId × Key) := []
deriving DecidableEq, Inhabited

/-- `Store::new()`. -/
def Store.new : Store := {}

/-- Read the slab at a key (`store[key]`; out-of-range access is fatal in
the source and returns the default stream here, an arm no well-formed
theorem input reaches). -/
def getStream (st : Store) (k : Key) : Stream := st.slab.getD k default

/-- Write the slab at a key (`store[key] = ...`; no-op out of range). -/
def setStream (st : Store) (k : Key) (s : Stream) : Store :=
  { st with slab := st.slab.set k s }

/-- `HashMap::get`: first binding of `id`, if any. -/
def idsLookup (ids : List (StreamId × Key)) (id : StreamId) : Option Key :=
  (ids.find? (fun p => p.1 = id)).map (fun p => p.2)

/-- `HashMap::insert`: replace the existing binding of `id` (returning
the old key) or append a new one. -/
def idsInsert (ids : List (StreamId × Key)) (id : StreamId) (k : Key) :
    Option Key × List (StreamId × Key) :=
  match ids with
  | [] => (none, [(id, k)])
  | (id', k') :: rest =>
    if id' = id then (some k', (id', k) :: rest)
    else
      let r := idsInsert rest id k
      (r.1, (id', k') :: r.2)

/-- `Store::insert(id, val)`: slab-insert (append), then bind `id` to
the fresh key; `assert!` that no old binding existed. `none` is the
fatal assertion failure. -/
def Store.insert (st : Store) (id : StreamId) (v : Stream) :
    Option (Store × Key) :=
  let key := st.slab.length
  let slab := st.slab ++ [v]
  let r := idsInsert st.ids id key
  if r.1.isNone then some ({ slab := slab, ids := r.2 }, key) else none

/-- `Store::find_mut(id)`: the key of the `Ptr` returned, if bound. -/
def Store.find_mut (st : Store) (id : StreamId) : Option Key :=
  idsLookup st.ids id

/-- The result of `Store::find_entry(id)`. -/
inductive Entry where
  | occupied (k : Key)
  | vacant
deriving DecidableEq

/-- `Store::find_entry(id)`: single probe of the identifier mapping. -/
def Store.find_entry (st : Store) (id : StreamId) : Entry :=
  match idsLookup st.ids id with
  | some k => .occupied k
  | none => .vacant

/-- `VacantEntry::insert(value)`: slab-insert, then bind `id` at the
probed vacant mapping slot (the probe guarantees `id` was absent). -/
def vacantInsert (st : Store) (id : StreamId) (v : Stream) : Store × Key :=
  let key := st.slab.length
  ({ slab := st.slab ++ [v], ids := st.ids ++ [(id, key)] }, key)

/-- Mutation of one stream through a resolved `Ptr` (`*ptr = ...` /
`OccupiedEntry::get_mut`). -/
def updateAt (st : Store) (k : Key) (f : Stream → Stream) : Store :=
  setStream st k (f (getStream st k))

/-- `Store::for_each(f)`: apply `f` to `slab[key]` for every key in the
identifier mapping's value list. -/
def Store.for_each (st : Store) (f : Stream → Stream) : Store :=
  st.ids.foldl (fun acc p => setStream acc p.2 (f (getStream acc p.2))) st

/-- The `(head, tail)` pair of a non-empty intrusive list. -/
structure Indices where
  head : Key
  tail : Key
deriving DecidableEq, Inhabited

/-- `List<B>` of the source: an intrusive list holding only its
`Option<Indices>`. -/
structure IList where
  indices : Option Indices
deriving DecidableEq, Inhabited

/-- `List::new()`. -/
def IList.new : IList := ⟨none⟩

/-- `List::is_empty()`. -/
def IList.is_empty (l : IList) : Bool := l.indices.isNone

/-- `List::take()`: returns the list owning the old `(head, tail)` pair
first, then the emptied source list. -/
def IList.take (l : IList) : IList × IList := (⟨l.indices⟩, ⟨none⟩)

/-- `List::push(stream)` for capability `N`: append key `k` at the tail
(the source's `debug_assert!` that `k`'s link is clear is stated as a
precondition of the theorems). -/
def IList.push (N : Next) (l : IList) (st : Store) (k : Key) :
    IList × Store :=
  match l.indices with
  | some idxs =>
    let st := setStream st idxs.tail
      (N.set_next (getStream st idxs.tail) (some k))
    (⟨some { idxs with tail := k }⟩, st)
  | none => (⟨some ⟨k, k⟩⟩, st)

/-- Result of `List::pop`: empty list, fatal invariant violation
(`assert!`/`unwrap` failure), or the popped head key with the new list
and store. -/
inductive PopRes where
  | empty
  | fatal
  | popped (k : Key) (l : IList) (st : Store)
deriving DecidableEq

/-- `List::pop(store)` for capability `N`. -/
def IList.pop (N : Next) (l : IList) (st : Store) : PopRes :=
  match l.indices with
  | none => .empty
  | some idxs =>
    if idxs.head = idxs.tail then
      if (N.next (getStream st idxs.head)).isNone then
        .popped idxs.head ⟨none⟩ st
      else .fatal
    else
      let r := N.take_next (getStream st idxs.head)
      let st := setStream st idxs.head r.2
      match r.1 with
      | some h => .popped idxs.head ⟨some { idxs with head := h }⟩ st
      | none => .fatal

/-- The body of the `retain` loop, with closure state `σ` threading the
`FnMut` predicate and explicit fuel (`none` = fuel exhausted). Returns
the final closure state, store, and `Option<Indices>` (`none` for the
early `self.indices = None; return` of the only-element case). -/
def retainGo (N : Next) (f : σ → Stream → σ × Bool) :
    Nat → σ → Store → Option Key → Key → Indices →
    Option (σ × Store × Option Indices)
  | 0, _, _, _, _, _ => none
  | fuel + 1, s, st, prev, curr, idxs =>
    let r := f s (getStream st curr)
    if r.2 then
      match N.next (getStream st curr) with
      | some nk => retainGo N f fuel r.1 st (some curr) nk idxs
      | none => some (r.1, st, some idxs)
    else
      match prev with
      | some pk =>
        let t := N.take_next (getStream st curr)
        let st := setStream st curr t.2
        let st := setStream st pk (N.set_next (getStream st pk) t.1)
        match t.1 with
        | none => some (r.1, st, some { idxs with tail := pk })
        | some _ => retainGo N f fuel r.1 st (some pk) curr idxs
      | none =>
        let t := N.take_next (getStream st curr)
        let st := setStream st curr t.2
        match t.1 with
        | some nk => retainGo N f fuel r.1 st none nk { idxs with head := nk }
        | none => some (r.1, st, none)

/-- `List::retain(store, f)` for capability `N`, with fuel. -/
def IList.retain (N : Next) (f : σ → Stream → σ × Bool) (fuel : Nat)
    (l : IList) (st : Store) (s : σ) : Option (σ × Store × IList) :=
  match l.indices with
  | none => some (s, st, l)
  | some idxs =>
    match retainGo N f fuel s st none idxs.head idxs with
    | none => none
    | some (s, st, o) => some (s, st, ⟨o⟩)

/-- Push every key of `ks`, left to right. -/
def pushAll (N : Next) (l : IList) (st : Store) (ks : List Key) :
    IList × Store :=
  ks.foldl (fun p k => IList.push N p.1 p.2 k) (l, st)

/-- Pop `n` times, collecting the popped keys (`none` on a fatal pop or
on an empty list before `n` pops happened). -/
def popMany (N : Next) : Nat → IList → Store → Option (List Key × IList × Store)
  | 0, l, st => some ([], l, st)
  | n + 1, l, st =>
    match IList.pop N l st with
    | .popped k l' st' =>
      (popMany N n l' st').map (fun r => (k :: r.1, r.2))
    | _ => none

/-- Pop until the list is empty, collecting the popped keys (`none` on a
fatal pop or on fuel exhaustion). -/
def drainKeys (N : Next) : Nat → IList → Store → Option (List Key)
  | 0, l, _ => if l.indices.isNone then some [] else none
  | fuel + 1, l, st =>
    match IList.pop N l st with
    | .empty => some []
    | .fatal => none
    | .popped k l' st' => (drainKeys N fuel l' st').map (fun ks => k :: ks)

/-- The invariant of the claims on `Store`: every bound `StreamId` maps
to an occupied slab slot (with no removal in this module, occupancy is
being below the slab length). -/
def StoreInv (st : Store) : Prop := ∀ p ∈ st.ids, p.2 < st.slab.length

instance (st : Store) : Decidable (StoreInv st) :=
  inferInstanceAs (Decidable (∀ p ∈ st.ids, p.2 < st.slab.length))

/-! ### Concrete instances used by the evaluation theorems -/

/-- A stream with payload `v`, both queue links clear. -/
def mkS (v : Nat) : Stream := { val := v }

/-- Five streams with payloads 1..5 occupying keys 0..4. -/
def st5 : Store := { slab := [mkS 1, mkS 2, mkS 3, mkS 4, mkS 5] }

/-- The queue-A list and store after pushing keys 0..4 onto `st5`. -/
def built5 : IList × Store := pushAll capA IList.new st5 [0, 1, 2, 3, 4]

/-- A pure predicate rejecting exactly the streams with payload 2 or 4
(no closure state). -/
def rejectTwoFour : Unit → Stream → Unit × Bool :=
  fun _ s => ((), decide (s.val ≠ 2 ∧ s.val ≠ 4))

/-- A predicate rejecting every stream. -/
def rejectAll : Unit → Stream → Unit × Bool := fun _ _ => ((), false)

/-- Three streams with payloads 1..3 occupying keys 0..2. -/
def st3 : Store := { slab := [mkS 1, mkS 2, mkS 3] }

/-- The queue-A list and store after pushing keys 0..2 onto `st3`. -/
def built3 : IList × Store := pushAll capA IList.new st3 [0, 1, 2]

/-- A predicate rejecting payload 2 whose closure state logs the payload
of every stream it is applied to. -/
def logReject2 : List Nat → Stream → List Nat × Bool :=
  fun log s => (log ++ [s.val], decide (s.val ≠ 2))

/-- A two-node queue-A chain 0 → 1 in the slab. -/
def stW2 : Store := { slab := [{ linkA := some 1, val := 1 }, { val := 2 }] }

/-- `stW2` after clearing key 0's queue-A link. -/
def stW2c : Store := { slab := [{ val := 1 }, { val := 2 }] }

/-- The list whose `(head, tail)` is `(0, 1)`. -/
def lW2 : IList := ⟨some ⟨0, 1⟩⟩

/-- The list left after popping key 0 from `lW2`. -/
def lW2r : IList := ⟨some ⟨1, 1⟩⟩

/-- `stC4` after the successful insertion of identifier 1. -/
def stC4b : Store := { slab := [mkS 9, default], ids := [(2, 0), (1, 1)] }

/-- A single stream, sitting in both queue A and queue B. -/
def stAB : Store := { slab := [mkS 7] }

/-- The one-element list `(0, 0)`. -/
def lOne : IList := ⟨some ⟨0, 0⟩⟩

/-- A store binding identifier 2 to key 0. -/
def stC4 : Store := { slab := [mkS 9], ids := [(2, 0)] }

/-- A store with two identifier-bound streams. -/
def stC9 : Store := { slab := [mkS 3, mkS 4], ids := [(1, 0), (5, 1)] }

/-- Increment a stream's payload. -/
def bumpVal : Stream → Stream := fun s => { s with val := s.val + 1 }

/-! ### Link capability laws -/

theorem capA_lawful : capA.Lawful := ⟨fun _ _ => rfl, fun _ => rfl⟩

theorem capB_lawful : capB.Lawful := ⟨fun _ _ => rfl, fun _ => rfl⟩

/-! ### Slab read/write lemmas -/

theorem getD_set_cases {α : Type} [Inhabited α] :
    ∀ (l : List α) (i j : Nat) (a : α),
    (l.set i a).getD j default =
      if j = i ∧ i < l.length then a else l.getD j default
  | [], i, j, a => by simp
  | x :: xs, 0, 0, a => by simp
  | x :: xs, 0, j + 1, a => by simp
  | x :: xs, i + 1, 0, a => by simp
  | x :: xs, i + 1, j + 1, a => by
    have h := getD_set_cases xs i j a
    simp only [List.set_cons_succ, List.getD_cons_succ, h, List.length_cons]
    have : (j + 1 = i + 1 ∧ i + 1 < xs.length + 1) ↔ (j = i ∧ i < xs.length) := by
      omega
    rw [if_congr this rfl rfl]

theorem getStream_setStream (st : Store) (k : Key) (s : Stream) (j : Key) :
    getStream (setStream st k s) j =
      if j = k ∧ k < st.slab.length then s else getStream st j :=
  getD_set_cases st.slab k j s

theorem getStream_set_self {st : Store} {k : Key} (s : Stream)
    (h : k < st.slab.length) : getStream (setStream st k s) k = s := by
  rw [getStream_setStream]; simp [h]

theorem getStream_set_ne {st : Store} {k : Key} (s : Stream) {j : Key}
    (h : j ≠ k) : getStream (setStream st k s) j = getStream st j := by
  rw [getStream_setStream]; simp [h]

theorem setStream_length (st : Store) (k : Key) (s : Stream) :
    (setStream st k s).slab.length = st.slab.length := by
  simp [setStream]

theorem setStream_ids (st : Store) (k : Key) (s : Stream) :
    (setStream st k s).ids = st.ids := rfl

/-! ### Chain well-formedness -/

/-- The `N`-links of `st` thread exactly through `ks`: each node points
to its successor and the last node's link is clear. -/
inductive Chain (N : Next) (st : Store) : List Key → Prop
  | nil : Chain N st []
  | single (k : Key) : N.next (getStream st k) = none → Chain N st [k]
  | cons (k k' : Key) (ks : List Key) : N.next (getStream st k) = some k' →
      Chain N st (k' :: ks) → Chain N st (k :: k' :: ks)

theorem Chain.congr {N : Next} {st st' : Store} {ks : List Key}
    (h : Chain N st ks)
    (he : ∀ k ∈ ks, N.next (getStream st' k) = N.next (getStream st k)) :
    Chain N st' ks := by
  induction h with
  | nil => exact .nil
  | single k hk => exact .single k (by rw [he k (by simp)]; exact hk)
  | cons k k' ks hk _ ih =>
    exact .cons k k' ks (by rw [he k (by simp)]; exact hk)
      (ih fun j hj => he j (List.mem_cons_of_mem k hj))

/-- Extending a chain by one node: redirect the old tail's link to the
new key (whose own link is clear). -/
theorem Chain.snoc {N : Next} {st st' : Store} {ks : List Key} {t k : Key}
    (hc : Chain N st ks) (hnd : ks.Nodup) (hlast : ks.getLast? = some t)
    (hframe : ∀ j ∈ ks, j ≠ t →
      N.next (getStream st' j) = N.next (getStream st j))
    (ht : N.next (getStream st' t) = some k)
    (hk : N.next (getStream st' k) = none) :
    Chain N st' (ks ++ [k]) := by
  induction hc with
  | nil => simp at hlast
  | single a ha =>
    have hta : t = a := by simpa using hlast.symm
    subst hta
    exact .cons t k [] ht (.single k hk)
  | cons a b ks hab hbs ih =>
    have hlast' : (b :: ks).getLast? = some t := by
      simpa using hlast
    have htmem : t ∈ b :: ks := List.mem_of_getLast?_eq_some hlast'
    have hat : a ≠ t := by
      intro hat
      exact (List.nodup_cons.mp hnd).1 (hat ▸ htmem)
    have hna : N.next (getStream st' a) = some b := by
      rw [hframe a (by simp) hat]; exact hab
    have := ih (List.nodup_cons.mp hnd).2 hlast'
      (fun j hj hjt => hframe j (List.mem_cons_of_mem a hj) hjt)
    exact .cons a b (ks ++ [k]) hna this

/-- Well-formedness of an intrusive list relative to the store: its
nodes are exactly the distinct keys `ks`, chained in order through the
`N`-links inside occupied slab slots, with `(head, tail)` matching. -/
structure ListWF (N : Next) (st : Store) (l : IList) (ks : List Key) : Prop where
  chain : Chain N st ks
  nodup : ks.Nodup
  bound : ∀ k ∈ ks, k < st.slab.length
  shape : (ks = [] ∧ l.indices = none) ∨
    (∃ idxs, l.indices = some idxs ∧ ks.head? = some idxs.head ∧
      ks.getLast? = some idxs.tail)

theorem ListWF.empty_indices {N : Next} {st : Store} {l : IList}
    (h : ListWF N st l []) : l.indices = none := by
  rcases h.shape with ⟨_, h⟩ | ⟨idxs, _, hh, _⟩
  · exact h
  · simp at hh

theorem ListWF.new_empty (N : Next) (st : Store) : ListWF N st IList.new [] :=
  ⟨.nil, List.nodup_nil, by simp, Or.inl ⟨rfl, rfl⟩⟩

/-! ### `push` and `pop` preserve well-formedness -/

theorem push_wf {N : Next} (hN : N.Lawful) {st : Store} {l : IList}
    {ks : List Key} {k : Key} (h : ListWF N st l ks) (hk : k ∉ ks)
    (hlink : N.next (getStream st k) = none) (hkb : k < st.slab.length) :
    ListWF N (IList.push N l st k).2 (IList.push N l st k).1 (ks ++ [k]) ∧
    (IList.push N l st k).2.slab.length = st.slab.length ∧
    (∀ j, j ∉ ks → getStream (IList.push N l st k).2 j = getStream st j) := by
  rcases h.shape with ⟨hks, hidx⟩ | ⟨idxs, hidx, hhead, hlast⟩
  · subst hks
    have hpush : IList.push N l st k = (⟨some ⟨k, k⟩⟩, st) := by
      simp [IList.push, hidx]
    rw [hpush]
    refine ⟨⟨.single k hlink, by simp, ?_, Or.inr ⟨⟨k, k⟩, rfl, rfl, rfl⟩⟩,
      rfl, fun j _ => rfl⟩
    intro j hj; simp at hj; subst hj; exact hkb
  · have hne : ks ≠ [] := by
      intro hks; subst hks; simp at hhead
    have htmem : idxs.tail ∈ ks := List.mem_of_getLast?_eq_some hlast
    have hkt : k ≠ idxs.tail := fun he => hk (he ▸ htmem)
    simp only [IList.push, hidx]
    set st' := setStream st idxs.tail
      (N.set_next (getStream st idxs.tail) (some k)) with hst'
    have hlen : st'.slab.length = st.slab.length := setStream_length ..
    have hframe : ∀ j, j ≠ idxs.tail → getStream st' j = getStream st j :=
      fun j hj => getStream_set_ne _ hj
    have htl : getStream st' idxs.tail =
        N.set_next (getStream st idxs.tail) (some k) :=
      getStream_set_self _ (h.bound _ htmem)
    refine ⟨⟨?_, ?_, ?_, ?_⟩, hlen, fun j hj => hframe j (fun he => hj (he ▸ htmem))⟩
    · exact Chain.snoc h.chain h.nodup hlast
        (fun j _ hjt => by rw [hframe j hjt])
        (by rw [htl, hN.next_set])
        (by rw [hframe k hkt]; exact hlink)
    · simp [List.nodup_append, h.nodup, hk]
    · intro j hj
      rw [hlen]
      rcases List.mem_append.mp hj with hj | hj
      · exact h.bound _ hj
      · simp at hj; subst hj; exact hkb
    · exact Or.inr ⟨⟨idxs.head, k⟩, rfl,
        by rw [List.head?_append_of_ne_nil _ hne]; exact hhead,
        List.getLast?_concat ..⟩

theorem pop_wf {N : Next} (hN : N.Lawful) {st : Store} {l : IList}
    {k : Key} {ks : List Key} (h : ListWF N st l (k :: ks)) :
    ∃ l' st', IList.pop N l st = .popped k l' st' ∧ ListWF N st' l' ks ∧
      st'.slab.length = st.slab.length ∧
      (∀ j, j ≠ k → getStream st' j = getStream st j) ∧
      N.next (getStream st' k) = none := by
  rcases h.shape with ⟨hks, _⟩ | ⟨idxs, hidx, hhead, hlast⟩
  · simp at hks
  have hheadk : idxs.head = k := by simpa using hhead.symm
  cases ks with
  | nil =>
    have htk : idxs.tail = k := by simpa using hlast.symm
    have hlk : N.next (getStream st k) = none := by
      cases h.chain with
      | single _ h => exact h
    refine ⟨⟨none⟩, st, ?_, ?_, rfl, fun _ _ => rfl, hlk⟩
    · simp [IList.pop, hidx, hheadk, htk, hlk]
    · exact ⟨.nil, List.nodup_nil, by simp, Or.inl ⟨rfl, rfl⟩⟩
  | cons k' ks' =>
    have hlast' : (k' :: ks').getLast? = some idxs.tail := by
      simpa using hlast
    have htmem : idxs.tail ∈ k' :: ks' := List.mem_of_getLast?_eq_some hlast'
    have hknotin : k ∉ k' :: ks' := (List.nodup_cons.mp h.nodup).1
    have hkt : idxs.head ≠ idxs.tail := by
      rw [hheadk]; intro he; exact hknotin (he ▸ htmem)
    have hnk : N.next (getStream st k) = some k' := by
      cases h.chain with
      | cons _ _ _ h _ => exact h
    have hkb : k < st.slab.length := h.bound k (by simp)
    set st' := setStream st k (N.set_next (getStream st k) none) with hst'
    have hlen : st'.slab.length = st.slab.length := setStream_length ..
    have hframe : ∀ j, j ≠ k → getStream st' j = getStream st j :=
      fun j hj => getStream_set_ne _ hj
    refine ⟨⟨some ⟨k', idxs.tail⟩⟩, st', ?_, ?_, hlen, hframe, ?_⟩
    · have hkt' : ¬(k = idxs.tail) := by rw [← hheadk]; exact hkt
      simp [IList.pop, hidx, hheadk, hkt', hN.take_eq, hnk, hst']
    · refine ⟨?_, (List.nodup_cons.mp h.nodup).2, ?_, ?_⟩
      · have hch : Chain N st (k' :: ks') := by
          cases h.chain with
          | cons _ _ _ _ hc => exact hc
        exact Chain.congr hch (fun j hj => by
          rw [hframe j (fun he => hknotin (he ▸ hj))])
      · intro j hj
        rw [hlen]
        exact h.bound j (List.mem_cons_of_mem k hj)
      · exact Or.inr ⟨⟨k', idxs.tail⟩, rfl, rfl, hlast'⟩
    · rw [getStream_set_self _ hkb, hN.next_set]

theorem pushAll_wf {N : Next} (hN : N.Lawful) :
    ∀ (pending : List Key) {st : Store} {l : IList} (acc : List Key),
    ListWF N st l acc → (acc ++ pending).Nodup →
    (∀ k ∈ pending, N.next (getStream st k) = none) →
    (∀ k ∈ pending, k < st.slab.length) →
    ListWF N (pushAll N l st pending).2 (pushAll N l st pending).1
      (acc ++ pending)
  | [], st, l, acc, hwf, _, _, _ => by simpa [pushAll] using hwf
  | k :: pending, st, l, acc, hwf, hnd, hlink, hb => by
    have hkacc : k ∉ acc := by
      have := (List.nodup_append.mp hnd).2.2
      intro hmem
      exact this hmem (by simp)
    obtain ⟨hwf', hlen', hframe'⟩ :=
      push_wf hN hwf hkacc (hlink k (by simp)) (hb k (by simp))
    have heq : acc ++ k :: pending = (acc ++ [k]) ++ pending := by simp
    rw [heq]
    have hpush : pushAll N l st (k :: pending) =
        pushAll N (IList.push N l st k).1 (IList.push N l st k).2 pending := by
      simp [pushAll, List.foldl_cons]
    rw [hpush]
    refine pushAll_wf hN pending (acc ++ [k]) hwf' (by rw [← heq]; exact hnd)
      ?_ ?_
    · intro j hj
      have hjk : j ∉ acc ++ [k] := by
        have hnd' : ((acc ++ [k]) ++ pending).Nodup := by rw [← heq]; exact hnd
        have := (List.nodup_append.mp hnd').2.2
        intro hmem
        exact this hmem hj
      rw [hframe' j (fun hmem => hjk (List.mem_append.mpr (Or.inl hmem)))]
      exact hlink j (List.mem_cons_of_mem k hj)
    · intro j hj
      rw [hlen']
      exact hb j (List.mem_cons_of_mem k hj)

theorem popMany_wf {N : Next} (hN : N.Lawful) :
    ∀ (ks : List Key) {st : Store} {l : IList}, ListWF N st l ks →
    ∃ l' st', popMany N ks.length l st = some (ks, l', st') ∧
      ListWF N st' l' []
  | [], st, l, hwf => ⟨l, st, rfl, hwf⟩
  | k :: ks, st, l, hwf => by
    obtain ⟨l', st', hpop, hwf', _, _, _⟩ := pop_wf hN hwf
    obtain ⟨l'', st'', heq, hwf''⟩ := popMany_wf hN ks hwf'
    exact ⟨l'', st'', by simp [popMany, hpop, heq], hwf''⟩

/-! ### Identifier-mapping lemmas -/

theorem idsInsert_fst :
    ∀ (ids : List (StreamId × Key)) (id : StreamId) (k : Key),
    (idsInsert ids id k).1 = idsLookup ids id
  | [], id, k => rfl
  | (id', k') :: rest, id, k => by
    by_cases h : id' = id
    · simp [idsInsert, idsLookup, List.find?, h]
    · simp only [idsInsert, if_neg h]
      rw [idsInsert_fst rest id k]
      simp [idsLookup, List.find?, h]

theorem idsInsert_of_absent :
    ∀ {ids : List (StreamId × Key)} {id : StreamId} (k : Key),
    idsLookup ids id = none → idsInsert ids id k = (none, ids ++ [(id, k)])
  | [], id, k, _ => rfl
  | (id', k') :: rest, id, k, h => by
    have hne : id' ≠ id := by
      intro he
      simp [idsLookup, List.find?, he] at h
    have hrest : idsLookup rest id = none := by
      simpa [idsLookup, List.find?, hne] using h
    simp [idsInsert, hne, idsInsert_of_absent k hrest]

/-! ### `for_each` lemmas -/

theorem forEach_go (f : Stream → Stream) :
    ∀ (ps : List (StreamId × Key)) (acc : Store),
    (ps.map Prod.snd).Nodup → (∀ p ∈ ps, p.2 < acc.slab.length) →
    (ps.foldl (fun a p => setStream a p.2 (f (getStream a p.2))) acc).slab.length
        = acc.slab.length ∧
    (ps.foldl (fun a p => setStream a p.2 (f (getStream a p.2))) acc).ids
        = acc.ids ∧
    (∀ k, k ∈ ps.map Prod.snd →
      getStream (ps.foldl (fun a p => setStream a p.2 (f (getStream a p.2))) acc) k
        = f (getStream acc k)) ∧
    (∀ k, k ∉ ps.map Prod.snd →
      getStream (ps.foldl (fun a p => setStream a p.2 (f (getStream a p.2))) acc) k
        = getStream acc k)
  | [], acc, _, _ => ⟨rfl, rfl, by simp, fun _ _ => rfl⟩
  | p :: ps, acc, hnd, hb => by
    set acc' := setStream acc p.2 (f (getStream acc p.2)) with hacc'
    have hlen : acc'.slab.length = acc.slab.length := setStream_length ..
    have hnd' : (ps.map Prod.snd).Nodup := (List.nodup_cons.mp (by simpa using hnd)).2
    have hpnotin : p.2 ∉ ps.map Prod.snd :=
      (List.nodup_cons.mp (by simpa using hnd)).1
    have hb' : ∀ q ∈ ps, q.2 < acc'.slab.length := by
      intro q hq; rw [hlen]; exact hb q (List.mem_cons_of_mem p hq)
    obtain ⟨ih1, ih2, ih3, ih4⟩ := forEach_go f ps acc' hnd' hb'
    have hfold : (p :: ps).foldl
        (fun a q => setStream a q.2 (f (getStream a q.2))) acc =
        ps.foldl (fun a q => setStream a q.2 (f (getStream a q.2))) acc' := by
      simp [hacc']
    refine ⟨by rw [hfold, ih1, hlen], by rw [hfold, ih2, hacc', setStream_ids],
      ?_, ?_⟩
    · intro k hk
      rw [hfold]
      rcases (by simpa using hk : k = p.2 ∨ k ∈ ps.map Prod.snd) with hk | hk
      · subst hk
        rw [ih4 _ hpnotin, hacc', getStream_set_self _ (hb p (by simp))]
      · have hkp : k ≠ p.2 := by
          intro he; rw [he] at hk; exact hpnotin hk
        rw [ih3 _ hk, hacc', getStream_set_ne _ hkp]
    · intro k hk
      have hkp : k ≠ p.2 := fun he => hk (by simp [he])
      have hkps : k ∉ ps.map Prod.snd := fun hmem => hk (by simp [hmem])
      rw [hfold, ih4 _ hkps, hacc', getStream_set_ne _ hkp]

theorem foldSet_frame (f : Stream → Stream) :
    ∀ (ps : List (StreamId × Key)) (acc : Store),
    (ps.foldl (fun a p => setStream a p.2 (f (getStream a p.2))) acc).slab.length
        = acc.slab.length ∧
    (ps.foldl (fun a p => setStream a p.2 (f (getStream a p.2))) acc).ids
        = acc.ids
  | [], _ => ⟨rfl, rfl⟩
  | p :: ps, acc => by
    obtain ⟨h1, h2⟩ :=
      foldSet_frame f ps (setStream acc p.2 (f (getStream acc p.2)))
    exact ⟨by simp [List.foldl_cons, h1, setStream_length],
      by simp [List.foldl_cons, h2, setStream_ids]⟩

/-! ### The store after a successful `pop` -/

theorem pop_store_shape {N : Next} {l : IList} {st : Store} {k : Key}
    {l' : IList} {st' : Store} (h : IList.pop N l st = .popped k l' st') :
    st' = st ∨ st' = setStream st k (N.take_next (getStream st k)).2 := by
  rcases hidx : l.indices with _ | idxs
  · simp [IList.pop, hidx] at h
  · simp only [IList.pop, hidx] at h
    by_cases hht : idxs.head = idxs.tail
    · rw [if_pos hht] at h
      by_cases hn : (N.next (getStream st idxs.head)).isNone
      · rw [if_pos hn] at h
        obtain ⟨hk, _, hst⟩ := PopRes.popped.inj h
        exact Or.inl hst.symm
      · rw [if_neg hn] at h
        cases h
    · rw [if_neg hht] at h
      rcases ht : (N.take_next (getStream st idxs.head)).1 with _ | nk
      · simp only [ht] at h
        cases h
      · simp only [ht] at h
        obtain ⟨hk, _, hst⟩ := PopRes.popped.inj h
        subst hk
        exact Or.inr hst.symm

/-- A successful `pop` changes at most the popped node's stream, and
only through `take_next`; any stream observation `g` untouched by
`take_next` is preserved everywhere, as is the slab length. -/
theorem pop_frame {α : Type} {N : Next} {l : IList} {st : Store} {k : Key}
    {l' : IList} {st' : Store} (h : IList.pop N l st = .popped k l' st')
    (g : Stream → α) (hg : ∀ s, g ((N.take_next s).2) = g s) :
    (∀ j, g (getStream st' j) = g (getStream st j)) ∧
    st'.slab.length = st.slab.length := by
  rcases pop_store_shape h with hst | hst
  · subst hst; exact ⟨fun _ => rfl, rfl⟩
  · subst hst
    refine ⟨fun j => ?_, setStream_length ..⟩
    rw [getStream_setStream]
    by_cases hc : j = k ∧ k < st.slab.length
    · rw [if_pos hc, hg, hc.1]
    · rw [if_neg hc]

/-- Transport list well-formedness along a store change preserving all
`N`-links and the slab length. -/
theorem wf_frame {N : Next} {st st' : Store}
    (hlen : st'.slab.length = st.slab.length)
    (hfr : ∀ j, N.next (getStream st' j) = N.next (getStream st j))
    {l : IList} {ks : List Key} (h : ListWF N st l ks) : ListWF N st' l ks :=
  ⟨Chain.congr h.chain (fun j _ => hfr j), h.nodup,
    fun j hj => hlen ▸ h.bound j hj, h.shape⟩

/-! ### Claim theorems -/

/-- C1 (the code contradicts the claim): for the five-element queue-A
chain over keys 0..4 with payloads 1..5, `retain` with the pure
predicate rejecting payloads 2 and 4 produces a list that drains to
`[0]` — not `[0, 2, 4]` as the claim's `[k1, k3, k5]` requires — because
the loop never advances past a spliced-out interior node and then cuts
the chain at its predecessor. The all-rejecting predicate does leave the
list empty, as the claim's second half states. -/
theorem retain_loses_kept_suffix :
    (IList.retain capA rejectTwoFour 32 built5.1 built5.2 ()).map
        (fun r => drainKeys capA 8 r.2.2 r.2.1) = some (some [0]) ∧
    ¬((IList.retain capA rejectTwoFour 32 built5.1 built5.2 ()).map
        (fun r => drainKeys capA 8 r.2.2 r.2.1) = some (some [0, 2, 4])) ∧
    (IList.retain capA rejectAll 32 built5.1 built5.2 ()).map
        (fun r => r.2.2.is_empty) = some true := by decide

/-- C2 (the code contradicts the claim): on the three-element queue-A
chain over keys 0..2 with payloads 1..3 and the logging predicate
rejecting payload 2, the predicate's call log is `[1, 2, 2]` — the
dropped node is evaluated twice, not once per node — and the resulting
list drains to `[0]`, losing the kept node 2, instead of `[0, 2]`. -/
theorem retain_not_single_pass :
    (IList.retain capA logReject2 32 built3.1 built3.2 []).map
        (fun r => (r.1, drainKeys capA 8 r.2.2 r.2.1)) =
      some ([1, 2, 2], some [0]) ∧
    ¬([1, 2, 2] : List Nat) = [1, 2, 3] ∧
    ¬(some [0] : Option (List Key)) = some ([0, 2] : List Key) := by decide

/-- C3: pushing any duplicate-free key sequence (all queue links clear,
all keys occupying slab slots) onto an empty list and popping as many
times yields exactly that sequence in order, leaves the list empty, and
one further pop reports the empty list. -/
theorem fifo_order {N : Next} (hN : N.Lawful) (st : Store) (ks : List Key)
    (hnd : ks.Nodup) (hlink : ∀ k ∈ ks, N.next (getStream st k) = none)
    (hb : ∀ k ∈ ks, k < st.slab.length) :
    ∃ l' st',
      popMany N ks.length (pushAll N IList.new st ks).1
        (pushAll N IList.new st ks).2 = some (ks, l', st') ∧
      l'.is_empty = true ∧ IList.pop N l' st' = .empty := by
  have h1 := pushAll_wf hN ks [] (ListWF.new_empty N st) (by simpa using hnd)
    hlink hb
  rw [List.nil_append] at h1
  obtain ⟨l', st', heq, hwf⟩ := popMany_wf hN ks h1
  refine ⟨l', st', heq, ?_, ?_⟩
  · simp [IList.is_empty, hwf.empty_indices]
  · simp [IList.pop, hwf.empty_indices]

theorem fifo_order_witness :
    capA.Lawful ∧ ([0, 1, 2] : List Key).Nodup ∧
    (∀ k ∈ ([0, 1, 2] : List Key), capA.next (getStream st3 k) = none) ∧
    (∀ k ∈ ([0, 1, 2] : List Key), k < st3.slab.length) ∧
    (∃ l' st',
      popMany capA ([0, 1, 2] : List Key).length
        (pushAll capA IList.new st3 [0, 1, 2]).1
        (pushAll capA IList.new st3 [0, 1, 2]).2 = some ([0, 1, 2], l', st') ∧
      l'.is_empty = true ∧ IList.pop capA l' st' = .empty) :=
  ⟨capA_lawful, by decide, by decide, by decide,
    fifo_order capA_lawful st3 [0, 1, 2] (by decide) (by decide) (by decide)⟩

/-- C6: `take` hands the original `(head, tail)` pair to the returned
list and empties the source; a subsequent push starts the fresh chain
`(k, k)` in the source, independent of the returned list, without
touching the store. -/
theorem take_transfers_ownership (N : Next) (l : IList) (st : Store) (k : Key) :
    (IList.take l).2.is_empty = true ∧
    (IList.take l).1.indices = l.indices ∧
    (IList.push N (IList.take l).2 st k).1.indices = some ⟨k, k⟩ ∧
    (IList.push N (IList.take l).2 st k).2 = st :=
  ⟨rfl, rfl, rfl, rfl⟩

theorem insert_eq_none_iff (st : Store) (id : StreamId) (v : Stream) :
    Store.insert st id v = none ↔ (idsLookup st.ids id).isSome = true := by
  simp only [Store.insert, idsInsert_fst]
  cases h : idsLookup st.ids id <;> simp [h]

theorem insert_of_absent (st : Store) (id : StreamId) (v : Stream)
    (h : idsLookup st.ids id = none) :
    Store.insert st id v = some (vacantInsert st id v) := by
  simp [Store.insert, idsInsert_of_absent _ h, vacantInsert]

theorem vacantInsert_inv (st : Store) (id : StreamId) (v : Stream)
    (hinv : StoreInv st) : StoreInv (vacantInsert st id v).1 := by
  intro p hp
  simp [vacantInsert] at hp ⊢
  rcases hp with hp | hp
  · exact Nat.lt_succ_of_lt (hinv p hp)
  · subst hp
    exact Nat.lt_succ_self _

/-- C4: `insert` hits its fatal assertion exactly when the identifier is
already bound in that store's mapping, and the same identifier can be
inserted into two different stores independently. -/
theorem insert_duplicate_fatal :
    (∀ (st : Store) (id : StreamId) (v : Stream),
      Store.insert st id v = none ↔ (idsLookup st.ids id).isSome = true) ∧
    (∀ (st1 st2 : Store) (id : StreamId) (v1 v2 : Stream),
      idsLookup st1.ids id = none → idsLookup st2.ids id = none →
      (Store.insert st1 id v1).isSome = true ∧
      (Store.insert st2 id v2).isSome = true) := by
  refine ⟨insert_eq_none_iff, fun st1 st2 id v1 v2 h1 h2 => ?_⟩
  constructor
  · rw [Option.isSome_iff_ne_none]
    intro hnone
    rw [insert_eq_none_iff st1 id v1, h1] at hnone
    cases hnone
  · rw [Option.isSome_iff_ne_none]
    intro hnone
    rw [insert_eq_none_iff st2 id v2, h2] at hnone
    cases hnone

theorem insert_duplicate_fatal_witness :
    idsLookup Store.new.ids 1 = none ∧ idsLookup stC4.ids 1 = none ∧
    ((Store.insert Store.new 1 default).isSome = true ∧
      (Store.insert stC4 1 default).isSome = true) :=
  ⟨rfl, by decide,
    insert_duplicate_fatal.2 Store.new stC4 1 default default rfl (by decide)⟩

/-- C5: on an absent identifier, `find_entry` reports a vacant slot, and
`Vacant::insert` from that probe yields exactly the store/key pair the
one-shot `insert` produces: the single-probe path refines `insert`. -/
theorem entry_single_probe_equiv (st : Store) (id : StreamId) (v : Stream)
    (h : idsLookup st.ids id = none) :
    Store.find_entry st id = Entry.vacant ∧
    Store.insert st id v = some (vacantInsert st id v) :=
  ⟨by simp [Store.find_entry, h], insert_of_absent st id v h⟩

theorem entry_single_probe_equiv_witness :
    idsLookup stC4.ids 1 = none ∧
    (Store.find_entry stC4 1 = Entry.vacant ∧
      Store.insert stC4 1 default = some (vacantInsert stC4 1 default)) :=
  ⟨by decide, entry_single_probe_equiv stC4 1 default (by decide)⟩

/-- C7: popping from queue A touches no stream's queue-B link field and
keeps every well-formed queue-B list (its `(head, tail)` and chain)
intact, and symmetrically for popping from queue B. -/
theorem multi_queue_independence :
    (∀ (st : Store) (lA : IList) (k : Key) (l' : IList) (st' : Store),
      IList.pop capA lA st = .popped k l' st' →
      (∀ j, (getStream st' j).linkB = (getStream st j).linkB) ∧
      (∀ (lB : IList) (ksB : List Key),
        ListWF capB st lB ksB → ListWF capB st' lB ksB)) ∧
    (∀ (st : Store) (lB : IList) (k : Key) (l' : IList) (st' : Store),
      IList.pop capB lB st = .popped k l' st' →
      (∀ j, (getStream st' j).linkA = (getStream st j).linkA) ∧
      (∀ (lA : IList) (ksA : List Key),
        ListWF capA st lA ksA → ListWF capA st' lA ksA)) := by
  constructor
  · intro st lA k l' st' hpop
    obtain ⟨hfr, hlen⟩ := pop_frame hpop (fun s => s.linkB) (fun _ => rfl)
    exact ⟨hfr, fun lB ksB hwf => wf_frame hlen hfr hwf⟩
  · intro st lB k l' st' hpop
    obtain ⟨hfr, hlen⟩ := pop_frame hpop (fun s => s.linkA) (fun _ => rfl)
    exact ⟨hfr, fun lA ksA hwf => wf_frame hlen hfr hwf⟩

theorem multi_queue_independence_witness :
    IList.pop capA lOne stAB = .popped 0 ⟨none⟩ stAB ∧
    ((∀ j, (getStream stAB j).linkB = (getStream stAB j).linkB) ∧
      (∀ (lB : IList) (ksB : List Key),
        ListWF capB stAB lB ksB → ListWF capB stAB lB ksB)) :=
  ⟨by decide, multi_queue_independence.1 stAB lOne 0 ⟨none⟩ stAB (by decide)⟩

/-- C8: `new`, successful `insert`, `Vacant::insert` after a vacant
probe, stream mutation through a resolved pointer or an occupied entry,
the key returned by `find_mut` or an occupied probe, and `for_each` all
respect the invariant that every bound identifier designates an occupied
slab slot. -/
theorem store_ops_preserve_inv :
    StoreInv Store.new ∧
    (∀ (st st' : Store) (id : StreamId) (v : Stream) (k : Key),
      StoreInv st → Store.insert st id v = some (st', k) → StoreInv st') ∧
    (∀ (st : Store) (id : StreamId) (v : Stream),
      StoreInv st → Store.find_entry st id = Entry.vacant →
      StoreInv (vacantInsert st id v).1) ∧
    (∀ (st : Store) (k : Key) (f : Stream → Stream),
      StoreInv st → StoreInv (updateAt st k f)) ∧
    (∀ (st : Store) (id : StreamId) (k : Key),
      StoreInv st → Store.find_mut st id = some k → k < st.slab.length) ∧
    (∀ (st : Store) (id : StreamId) (k : Key),
      StoreInv st → Store.find_entry st id = Entry.occupied k →
      k < st.slab.length) ∧
    (∀ (st : Store) (f : Stream → Stream),
      StoreInv st → StoreInv (Store.for_each st f)) := by
  refine ⟨?_, ?_, ?_, ?_, ?_, ?_, ?_⟩
  · intro p hp
    cases hp
  · intro st st' id v k hinv hins
    have hlook : idsLookup st.ids id = none := by
      cases hl : idsLookup st.ids id with
      | none => rfl
      | some k' =>
        have hnone : Store.insert st id v = none :=
          (insert_eq_none_iff st id v).mpr (by rw [hl]; rfl)
        rw [hnone] at hins
        cases hins
    rw [insert_of_absent st id v hlook] at hins
    have hfst : (vacantInsert st id v).1 = st' :=
      congrArg Prod.fst (Option.some.inj hins)
    rw [← hfst]
    exact vacantInsert_inv st id v hinv
  · intro st id v hinv _
    exact vacantInsert_inv st id v hinv
  · intro st k f hinv p hp
    rw [updateAt, setStream_ids] at hp
    rw [updateAt, setStream_length]
    exact hinv p hp
  · intro st id k hinv hfind
    simp only [Store.find_mut, idsLookup, Option.map_eq_some'] at hfind
    obtain ⟨p, hp, hpk⟩ := hfind
    exact hpk ▸ hinv p (List.mem_of_find?_eq_some hp)
  · intro st id k hinv hfind
    simp only [Store.find_entry] at hfind
    rcases hl : idsLookup st.ids id with _ | k'
    · rw [hl] at hfind
      cases hfind
    · rw [hl] at hfind
      have hk : k' = k := by
        cases hfind
        rfl
      subst hk
      simp only [idsLookup, Option.map_eq_some'] at hl
      obtain ⟨p, hp, hpk⟩ := hl
      exact hpk ▸ hinv p (List.mem_of_find?_eq_some hp)
  · intro st f hinv p hp
    obtain ⟨hlen, hids⟩ := foldSet_frame f st.ids st
    rw [Store.for_each, hids] at hp
    rw [Store.for_each, hlen]
    exact hinv p hp

theorem store_ops_preserve_inv_witness :
    StoreInv stC4 ∧ Store.insert stC4 1 default = some (stC4b, 1) ∧
    StoreInv stC4b :=
  ⟨by decide, by decide,
    store_ops_preserve_inv.2.1 stC4 stC4b 1 default 1 (by decide) (by decide)⟩

/-- C9: `for_each` iterates the identifier mapping: with every bound key
designating an occupied slot and no two identifiers sharing a key, an
arbitrary mutation `f` is applied to each reachable stream exactly once
(the slot ends as `f` of its old stream) and unreachable slots are left
untouched; the mapping itself is unchanged. -/
theorem for_each_visits_each_once (st : Store) (f : Stream → Stream)
    (hnd : (st.ids.map Prod.snd).Nodup) (hinv : StoreInv st) :
    (Store.for_each st f).ids = st.ids ∧
    (∀ k ∈ st.ids.map Prod.snd,
      getStream (Store.for_each st f) k = f (getStream st k)) ∧
    (∀ k, k ∉ st.ids.map Prod.snd →
      getStream (Store.for_each st f) k = getStream st k) := by
  obtain ⟨h1, h2, h3, h4⟩ :=
    forEach_go f st.ids st hnd (fun p hp => hinv p hp)
  exact ⟨h2, h3, h4⟩

theorem for_each_visits_each_once_witness :
    (stC9.ids.map Prod.snd).Nodup ∧ StoreInv stC9 ∧
    ((Store.for_each stC9 bumpVal).ids = stC9.ids ∧
      (∀ k ∈ stC9.ids.map Prod.snd,
        getStream (Store.for_each stC9 bumpVal) k =
          bumpVal (getStream stC9 k)) ∧
      (∀ k, k ∉ stC9.ids.map Prod.snd →
        getStream (Store.for_each stC9 bumpVal) k = getStream stC9 k)) :=
  ⟨by decide, by decide,
    for_each_visits_each_once stC9 bumpVal (by decide) (by decide)⟩

/-- C10: whenever `pop` returns the removed head of a well-formed list,
that node's queue link is clear afterwards — taken as it is read in the
multi-element case, already required clear by the single-element
assertion — so the popped node meets `push`'s clear-link precondition
for immediate re-enqueueing. -/
theorem pop_clears_popped_link {N : Next} (hN : N.Lawful) {st : Store}
    {l : IList} {ks : List Key} {k : Key} {l' : IList} {st' : Store}
    (hwf : ListWF N st l ks) (hpop : IList.pop N l st = .popped k l' st') :
    N.next (getStream st' k) = none := by
  cases ks with
  | nil =>
    have hempty : IList.pop N l st = .empty := by
      simp [IList.pop, hwf.empty_indices]
    rw [hempty] at hpop
    cases hpop
  | cons k0 ks =>
    obtain ⟨l2, st2, heq, _, _, _, hlink⟩ := pop_wf hN hwf
    rw [heq] at hpop
    obtain ⟨hk, _, hst⟩ := PopRes.popped.inj hpop
    rw [← hk, ← hst]
    exact hlink

theorem pop_clears_popped_link_witness :
    capA.Lawful ∧ ListWF capA stW2 lW2 [0, 1] ∧
    IList.pop capA lW2 stW2 = .popped 0 lW2r stW2c ∧
    capA.next (getStream stW2c 0) = none :=
  have hwf : ListWF capA stW2 lW2 [0, 1] :=
    ⟨Chain.cons 0 1 [] rfl (Chain.single 1 rfl), by decide, by decide,
      Or.inr ⟨⟨0, 1⟩, rfl, rfl, rfl⟩⟩
  ⟨capA_lawful, hwf, by decide,
    pop_clears_popped_link capA_lawful hwf
      (show IList.pop capA lW2 stW2 = .popped 0 lW2r stW2c by decide)⟩

end H2
